import Mathlib

/-!
# Verification of the AudioTranscriber batch orchestration core

Shallow embedding, in Lean 4, of the algorithmic core of the
AudioTranscriber repository:

* `FormatUtils.format_timestamp`, `FormatUtils.insert_interval_timestamps`
  and `FormatUtils.format_text_with_line_breaks`
  (from `utilities/format_utils.py`);
* `FileUtils.get_audio_files` and `FileUtils.get_relative_path`
  (from `utilities/file_utils.py`);
* the whisper branch of `Transcriber.transcribe_with_metadata`
  (from `transcription/transcriber.py`);
* `BatchProcessor.process_batch` / `_process_single_file`
  (from `transcription/batch_processor.py`).

Python strings are modelled as `List Char` (for the text-reflow proofs) or
`String`; Python floats are modelled as exact rationals `ℚ`, except where a
specific IEEE-754 binary64 value matters, in which case that value's exact
rational is used and the absence of intermediate rounding is argued in the
accompanying comment.  Unbounded `while` loops are given an explicit fuel
parameter; running out of fuel is `none`, so "for every fuel the result is
`none`" renders non-termination of the source loop.
-/

set_option allowUnsafeReducibility true

attribute [local semireducible] Rat.add Rat.mul Rat.sub Rat.normalize Rat.div Rat.inv

namespace PyStr

/-- Python's notion of (ASCII) whitespace used by `str.split()` / `str.strip()`:
space, tab, linefeed, carriage return, vertical tab, form feed.  (Non-ASCII
Unicode whitespace is not modelled.) -/
def pyIsSpace (c : Char) : Bool :=
  c = ' ' || c = '\t' || c = '\n' || c = '\r' || c = '\x0b' || c = '\x0c'

/-- `str.strip()`: drop whitespace from both ends. -/
def strip (l : List Char) : List Char :=
  ((l.dropWhile pyIsSpace).reverse.dropWhile pyIsSpace).reverse

/-- Accumulator worker for `str.split()` (split on whitespace runs, dropping
empty pieces).  `cur` holds the current word, reversed. -/
def splitWSAux : List Char → List Char → List (List Char)
  | [], cur => if cur = [] then [] else [cur.reverse]
  | c :: cs, cur =>
    if pyIsSpace c then
      if cur = [] then splitWSAux cs [] else cur.reverse :: splitWSAux cs []
    else
      splitWSAux cs (c :: cur)

/-- `str.split()` with no argument: whitespace-delimited words. -/
def splitWS (l : List Char) : List (List Char) :=
  splitWSAux l []

/-- `str.split('\n')`: split at every linefeed, keeping empty pieces. -/
def splitNL : List Char → List (List Char)
  | [] => [[]]
  | c :: cs =>
    match splitNL cs with
    | [] => [[]]
    | p :: ps => if c = '\n' then [] :: p :: ps else (c :: p) :: ps

/-- `sep.join(pieces)`. -/
def joinSep (sep : List Char) : List (List Char) → List Char
  | [] => []
  | [x] => x
  | x :: y :: rest => x ++ sep ++ joinSep sep (y :: rest)

/-- `'\n'.join(pieces)`. -/
def joinNL (ls : List (List Char)) : List Char :=
  joinSep ['\n'] ls

/-- `' '.join(pieces)`. -/
def joinSP (ls : List (List Char)) : List Char :=
  joinSep [' '] ls

/-- `str.strip()` on Lean `String`s. -/
def stripS (s : String) : String :=
  String.mk (strip s.toList)

/-- A string with no whitespace characters (one "word"). -/
def NoWS (l : List Char) : Prop :=
  ∀ c ∈ l, pyIsSpace c = false

/-- A well-formed word as produced by `splitWS`. -/
def GoodWord (w : List Char) : Prop :=
  w ≠ [] ∧ NoWS w

end PyStr

namespace FormatUtils

/-- Python `int()` applied to a nonnegative-or-negative rational: truncation
toward zero (`int(q)`). -/
def pyInt (q : ℚ) : ℤ :=
  if 0 ≤ q then ⌊q⌋ else -⌊-q⌋

/-- Python `a % m` for numbers (sign follows `m`); here only used with
`m > 0`, where `a % m = a - m * floor (a / m)`. -/
def pyMod (a m : ℚ) : ℚ :=
  a - m * ⌊a / m⌋

/-- Python `f"{n:02d}"` for the integer values reached here. -/
def pad2 (n : ℤ) : String :=
  if 0 ≤ n ∧ n < 10 then "0" ++ toString n else toString n

/-- Python `f"{n:03d}"` for the integer values reached here. -/
def pad3 (n : ℤ) : String :=
  if 0 ≤ n ∧ n < 10 then "00" ++ toString n
  else if 0 ≤ n ∧ n < 100 then "0" ++ toString n
  else toString n

/-- `FormatUtils.format_timestamp` (utilities/format_utils.py):
seconds to `[HH:MM:SS]`, `[MM:SS]` or `[HH:MM:SS.mmm]`.  `SECONDS_PER_HOUR
= 3600`, `SECONDS_PER_MINUTE = 60` from config/constants.py.  The float
operations `seconds // x`, `seconds % x`, `int(...)` are rendered over `ℚ`
by floor division, `pyMod`, and `pyInt`. -/
def format_timestamp (seconds : ℚ) (format_type : String) : String :=
  let hours : ℤ := ⌊seconds / 3600⌋
  let minutes : ℤ := ⌊pyMod seconds 3600 / 60⌋
  let secs : ℤ := pyInt (pyMod seconds 60)
  let millis : ℤ := pyInt (pyMod seconds 1 * 1000)
  if format_type = "HH:MM:SS" then
    "[" ++ pad2 hours ++ ":" ++ pad2 minutes ++ ":" ++ pad2 secs ++ "]"
  else if format_type = "MM:SS" then
    let total_minutes : ℤ := ⌊seconds / 60⌋
    "[" ++ pad2 total_minutes ++ ":" ++ pad2 secs ++ "]"
  else if format_type = "timecode" then
    "[" ++ pad2 hours ++ ":" ++ pad2 minutes ++ ":" ++ pad2 secs ++ "." ++
      pad3 millis ++ "]"
  else
    "[" ++ pad2 hours ++ ":" ++ pad2 minutes ++ ":" ++ pad2 secs ++ "]"

/-- A segment dictionary `{'start': ..., 'end': ..., 'text': ...}` as consumed
by `insert_interval_timestamps`. -/
structure Segment where
  start : ℚ
  stop : ℚ
  text : String
deriving DecidableEq, Repr

/-- One entry of the `result` list built by `insert_interval_timestamps`:
either a timestamp marker (appended via `format_timestamp`) or a block of
joined segment text. -/
inductive Entry where
  | marker (s : String)
  | block (s : String)
deriving DecidableEq, Repr

/-- The string content of an entry. -/
def Entry.content : Entry → String
  | .marker s => s
  | .block s => s

/-- Whether an entry is a timestamp marker. -/
def Entry.isMarker : Entry → Bool
  | .marker _ => true
  | .block _ => false

/-- Number of timestamp markers among the emitted entries. -/
def markerCount (es : List Entry) : ℕ :=
  es.countP Entry.isMarker

/-- The `while current_interval <= segment_start` loop of
`insert_interval_timestamps`, with fuel:
`while current_interval <= segment_start: result.append(format_timestamp(
current_interval, format_type)); current_interval += interval_seconds`.
Returns the appended markers and the final `current_interval`, or `none`
when the fuel is exhausted with the loop guard still true. -/
def whileEmit (interval_seconds segment_start : ℚ) (format_type : String) :
    ℕ → ℚ → Option (List Entry × ℚ)
  | 0, current_interval =>
    if current_interval ≤ segment_start then none
    else some ([], current_interval)
  | fuel + 1, current_interval =>
    if current_interval ≤ segment_start then
      (whileEmit interval_seconds segment_start format_type fuel
          (current_interval + interval_seconds)).map
        (fun r =>
          (.marker (format_timestamp current_interval format_type) :: r.1,
           r.2))
    else
      some ([], current_interval)

/-- The `for segment in segments` loop of `insert_interval_timestamps`.
State: remaining segments, `current_interval`, accumulated `current_text`
(list of stripped segment texts), and the `result` list so far.  Fuel is
passed to each inner `while` loop. -/
def segLoop (interval_seconds : ℚ) (format_type : String) (fuel : ℕ) :
    List Segment → ℚ → List String → List Entry →
    Option (List Entry × ℚ × List String)
  | [], current_interval, current_text, result =>
    some (result, current_interval, current_text)
  | seg :: rest, current_interval, current_text, result =>
    let segment_text := PyStr.stripS seg.text
    if segment_text = "" then
      segLoop interval_seconds format_type fuel rest current_interval
        current_text result
    else if current_interval ≤ seg.start then
      let result1 :=
        if current_text = [] then result
        else result ++ [.block (" ".intercalate current_text)]
      match whileEmit interval_seconds seg.start format_type fuel
          current_interval with
      | none => none
      | some (markers, current_interval2) =>
        segLoop interval_seconds format_type fuel rest current_interval2
          [segment_text] (result1 ++ markers)
    else
      segLoop interval_seconds format_type fuel rest current_interval
        (current_text ++ [segment_text]) result

/-- `FormatUtils.insert_interval_timestamps` (utilities/format_utils.py),
returning the list of appended entries (`'\n'.join` of their contents is the
returned string, see `insert_interval_timestamps_text`).  `none` means the
inner `while` loop ran out of fuel (the source loop does not terminate). -/
def insert_interval_timestamps (fuel : ℕ) (segments : List Segment)
    (interval_seconds : ℚ) (format_type : String) : Option (List Entry) :=
  if segments = [] then some []
  else
    match segLoop interval_seconds format_type fuel segments interval_seconds
        [] [.marker (format_timestamp 0 format_type)] with
    | none => none
    | some (result, _, current_text) =>
      some (if current_text = [] then result
            else result ++ [.block (" ".intercalate current_text)])

/-- The string actually returned by the source function: entries joined by
newlines (empty string for the empty-segments early return). -/
def insert_interval_timestamps_text (fuel : ℕ) (segments : List Segment)
    (interval_seconds : ℚ) (format_type : String) : Option String :=
  (insert_interval_timestamps fuel segments interval_seconds format_type).map
    (fun es => "\n".intercalate (es.map Entry.content))

end FormatUtils

namespace FormatUtils

/-- The `for word in words` loop of `format_text_with_line_breaks`
(utilities/format_utils.py): greedily pack words onto lines.  `cur` is
`current_line`; returns the `lines` list built by the loop together with the
final `current_line`. -/
def packLoop (max_chars : ℕ) (cur : List Char) :
    List (List Char) → List (List Char) × List Char
  | [] => ([], cur)
  | word :: words =>
    let test_line := if cur = [] then word else cur ++ [' '] ++ word
    if test_line.length ≤ max_chars then packLoop max_chars test_line words
    else
      let r := packLoop max_chars word words
      (if cur = [] then r.1 else cur :: r.1, r.2)

/-- One paragraph's `lines` (the loop plus the trailing
`if current_line: lines.append(current_line)`). -/
def packWords (max_chars : ℕ) (words : List (List Char)) :
    List (List Char) :=
  let r := packLoop max_chars [] words
  if r.2 = [] then r.1 else r.1 ++ [r.2]

/-- The per-paragraph body of `format_text_with_line_breaks`: a blank
paragraph contributes `""`, any other paragraph its greedily packed lines
joined by newlines. -/
def reflowPara (max_chars : ℕ) (para : List Char) : List Char :=
  if PyStr.strip para = [] then []
  else PyStr.joinNL (packWords max_chars (PyStr.splitWS para))

/-- `format_text_with_line_breaks` for `max_chars > 0`: split into
paragraphs at newlines, reflow each, join with newlines. -/
def reflowPos (max_chars : ℕ) (text : List Char) : List Char :=
  PyStr.joinNL ((PyStr.splitNL text).map (reflowPara max_chars))

/-- `FormatUtils.format_text_with_line_breaks` (utilities/format_utils.py).
The Python `TypeError` branch (non-string input) is unrepresentable in the
typed embedding; the `ValueError` branch for `max_chars < 0` is the
`.error` case, `max_chars == 0` returns the text unchanged. -/
def format_text_with_line_breaks (text : List Char) (max_chars : ℤ) :
    Except String (List Char) :=
  if max_chars < 0 then .error "max_chars must be non-negative"
  else if max_chars = 0 then .ok text
  else .ok (reflowPos max_chars.toNat text)

end FormatUtils

namespace FileUtils

/-- POSIX `os.path.basename`: everything after the last slash. -/
def basename (p : String) : String :=
  String.mk ((p.toList.reverse.takeWhile (fun c => c ≠ '/')).reverse)

/-- Index of the last occurrence of `c` in `l`, or `-1` when absent
(Python `str.rfind`). -/
def rfind (l : List Char) (c : Char) : ℤ :=
  match (l.reverse.indexOf? c) with
  | some i => (l.length : ℤ) - 1 - (i : ℤ)
  | none => -1

/-- POSIX `os.path.splitext(p)[0]`: cut at the last dot, provided that dot
lies inside the basename and the basename does not consist solely of
leading dots up to it. -/
def splitextRoot (p : String) : String :=
  let l := p.toList
  let sepIndex := rfind l '/'
  let dotIndex := rfind l '.'
  if sepIndex < dotIndex ∧
      ((List.range l.length).any fun j =>
        sepIndex < (j : ℤ) ∧ (j : ℤ) < dotIndex ∧ l.getD j ' ' ≠ '.') then
    String.mk (l.take dotIndex.toNat)
  else p

/-- POSIX `os.path.join(a, b)` for a single extra component. -/
def joinPath (a b : String) : String :=
  if b.startsWith "/" then b
  else if a = "" ∨ a.endsWith "/" then a ++ b
  else a ++ "/" ++ b

/-- `FileUtils.get_relative_path` (utilities/file_utils.py).
`os.path.relpath` is filesystem/platform glue, modelled as an abstract
result: `.ok r` is a successful relative path, `.error ()` the `ValueError`
the source catches, upon which it falls back to `os.path.basename`. -/
def get_relative_path (relpathResult : Except Unit String)
    (file_path : String) : String :=
  match relpathResult with
  | .ok r => r
  | .error _ => basename file_path

/-- `AUDIO_EXTENSIONS` from config/constants.py. -/
def AUDIO_EXTENSIONS : List String :=
  [".mp3", ".wav", ".m4a", ".flac", ".aac", ".ogg", ".webm"]

/-- POSIX `os.path.splitext(p)[1]`: the extension part. -/
def splitextExt (p : String) : String :=
  String.mk (p.toList.drop (splitextRoot p).toList.length)

/-- An error raised by `os.listdir`, matching the `except` clauses of
`get_audio_files`. -/
inductive OSErr where
  | fileNotFound
  | permissionError
  | other (msg : String)
deriving DecidableEq, Repr

/-- The filesystem as seen by `get_audio_files`: the triples `os.walk`
would yield from the root (empty for a missing or unreadable root, since
`os.walk` with the default `onerror=None` swallows the error), the result
of `os.listdir` on the root, and the `os.path.isfile` predicate. -/
structure FS where
  walkTriples : List (String × List String × List String)
  listdirResult : Except OSErr (List String)
  isfile : String → Bool

/-- Insertion of a string into a lexicographically sorted list
(Python `sorted` on a list of strings). -/
def sortedInsert (s : String) : List String → List String
  | [] => [s]
  | t :: ts => if s ≤ t then s :: t :: ts else t :: sortedInsert s ts

/-- Python `sorted` for lists of strings. -/
def pySorted : List String → List String
  | [] => []
  | s :: ss => sortedInsert s (pySorted ss)

/-- Messages printed by `get_audio_files` when `os.listdir` raises. -/
def listdirErrMsg (folder : String) : OSErr → String
  | .fileNotFound => "Folder not found: " ++ folder
  | .permissionError => "Permission denied accessing folder: " ++ folder
  | .other e => "Error reading audio files from " ++ folder ++ ": " ++ e

/-- `FileUtils.get_audio_files` (utilities/file_utils.py).  Returns the
sorted list of matching paths together with the list of messages printed.
Recursive mode folds over `os.walk`; non-recursive mode uses `os.listdir`
inside `try`/`except` clauses that print and degrade to the empty list. -/
def get_audio_files (fs : FS) (folder : String) (recursive : Bool) :
    List String × List String :=
  if recursive then
    (pySorted (fs.walkTriples.flatMap fun t =>
      (t.2.2.filter fun f =>
        (splitextExt f).toLower ∈ AUDIO_EXTENSIONS).map
          (fun f => joinPath t.1 f)), [])
  else
    match fs.listdirResult with
    | .ok entries =>
      (pySorted ((entries.filter fun f =>
        fs.isfile (joinPath folder f) &&
          decide ((splitextExt f).toLower ∈ AUDIO_EXTENSIONS)).map
            (fun f => joinPath folder f)), [])
    | .error e => ([], [listdirErrMsg folder e])

end FileUtils

namespace Transcriber

/-- A whisper segment dictionary (`result['segments']` entry):
`avg_logprob`, `start`, `end`, `text` with the `.get` defaults used by the
source. -/
structure WSeg where
  start : Option ℚ
  stop : Option ℚ
  text : Option String
  avg_logprob : Option ℚ
deriving DecidableEq, Repr

/-- The dictionary returned by `model.transcribe(audio_file)` for the
`'whisper'` model type.  `segments = none` models the absence of the
`'segments'` key. -/
structure WhisperResult where
  segments : Option (List WSeg)
  language : Option String
  duration : Option ℚ
deriving DecidableEq, Repr

/-- The timestamp-relevant option dictionary passed to
`transcribe_with_metadata` (`None` is modelled by `Option`). -/
structure TsOptions where
  timestamps_enabled : Bool
  timestamp_format : Option String
  timestamp_interval : Option ℚ
deriving DecidableEq, Repr

/-- `options and options.get('timestamps_enabled', False)`. -/
def tsEnabled : Option TsOptions → Bool
  | none => false
  | some o => o.timestamps_enabled

/-- `options.get('timestamp_interval', 30)` (only reached when
`options` is truthy). -/
def tsInterval : Option TsOptions → ℚ
  | none => 30
  | some o => o.timestamp_interval.getD 30

/-- `options.get('timestamp_format', 'HH:MM:SS')`. -/
def tsFormat : Option TsOptions → String
  | none => "HH:MM:SS"
  | some o => o.timestamp_format.getD "HH:MM:SS"

/-- A Python exception escaping the whisper branch. -/
inductive PyErr where
  | unboundLocal (name : String)
deriving DecidableEq, Repr

/-- The fields of the dictionary returned by the whisper branch of
`transcribe_with_metadata` that the claims inspect. -/
structure MetaResult where
  text : String
  language : String
  duration : ℚ
  avg_logprob : Option ℚ
deriving DecidableEq, Repr

/-- Build the `segment_list` of the timestamps branch from
`result['segments']` (with the `.get(..., 0)` / `.get(..., '')`
defaults). -/
def buildSegmentList (segs : List WSeg) : List FormatUtils.Segment :=
  segs.map fun s =>
    { start := s.start.getD 0, stop := s.stop.getD 0, text := s.text.getD "" }

/-- `avg_confidence` as computed in the whisper branch:
mean over `seg.get('avg_logprob', 0)` when `'segments'` is present and
non-empty, `None` otherwise. -/
def whisperAvgConfidence (result : WhisperResult) : Option ℚ :=
  match result.segments with
  | some (s :: ss) =>
    some (((s :: ss).map (fun g => g.avg_logprob.getD 0)).sum /
      ((s :: ss).length : ℚ))
  | _ => none

/-- The whisper (`model_type == 'whisper'`) branch of
`Transcriber.transcribe_with_metadata` (transcription/transcriber.py),
from the `avg_confidence` computation to the returned dictionary.

Python scoping is modelled explicitly: the local `segment_list` starts
unassigned (`none`) and is assigned only inside the
timestamps-enabled-and-segments-present branch; the `else` branch reads it,
so when the branch is not taken that read raises `UnboundLocalError`.
The outer `Option` is the fuel monad of `insert_interval_timestamps`
(`none` = the inner while loop did not terminate). -/
def transcribe_with_metadata_whisper (fuel : ℕ) (result : WhisperResult)
    (options : Option TsOptions) : Option (Except PyErr MetaResult) :=
  let avg_confidence := whisperAvgConfidence result
  let segment_list : Option (List FormatUtils.Segment) := none
  if tsEnabled options && result.segments.isSome then
    let segment_list := some (buildSegmentList (result.segments.getD []))
    (FormatUtils.insert_interval_timestamps_text fuel (segment_list.getD [])
        (tsInterval options) (tsFormat options)).map fun text =>
      .ok { text := text
            language := result.language.getD "Unknown"
            duration := result.duration.getD 0
            avg_logprob := avg_confidence }
  else
    match segment_list with
    | none => some (.error (.unboundLocal "segment_list"))
    | some sl =>
      some (.ok
        { text := " ".intercalate
            (((sl.map fun s => PyStr.stripS s.text).filter
              fun t => t ≠ ""))
          language := result.language.getD "Unknown"
          duration := result.duration.getD 0
          avg_logprob := avg_confidence })

end Transcriber

namespace BatchProcessor

/-- What happens to one file inside `_process_single_file`
(transcription/batch_processor.py), as far as the statistics are
concerned.  The single `processing_times.append` of the success path sits
between the transcription/formatting steps and the output write, so an
exception (`PerFileFailure`) either precedes the append
(`failBeforeRecord`: e.g. `os.path.getsize`, `transcribe_with_metadata` or
`format_text_with_line_breaks` raising) or follows it (`failAfterRecord`:
the output write raising). -/
inductive FileOutcome where
  | skipExists
  | ok (duration : ℚ)
  | failBeforeRecord
  | failAfterRecord (duration : ℚ)
deriving DecidableEq, Repr

/-- Whether `_process_single_file` returns `True` for this outcome. -/
def FileOutcome.success : FileOutcome → Bool
  | .skipExists => true
  | .ok _ => true
  | .failBeforeRecord => false
  | .failAfterRecord _ => false

/-- Whether the outcome appends an entry to `processing_times`
(`0` for a skip, the measured duration otherwise). -/
def FileOutcome.recorded : FileOutcome → Option ℚ
  | .skipExists => some 0
  | .ok d => some d
  | .failBeforeRecord => none
  | .failAfterRecord d => some d

/-- The mutable fields of `BatchProcessor` that `process_batch` resets and
updates. -/
structure State where
  cancel_requested : Bool
  total_files : ℕ
  processed_files : ℕ
  successful_files : ℕ
  failed_files : ℕ
  processing_times : List ℚ
deriving DecidableEq, Repr

/-- The terminal phase of a run (§4.7 of the spec):
`Completed` when the per-file loop exhausted the list, `Cancelled` when it
broke out on the cancellation flag. -/
inductive Phase where
  | completed
  | cancelled
deriving DecidableEq, Repr

/-- The external `cancel()` caller, discretised: `some k` means the flag
is raised after exactly `k` files have completed processing (so the check
at the top of iteration `i`, entered with `i` files completed, sees the
flag iff `k ≤ i`); `none` means `cancel()` is never called during the
run. -/
def cancelObserved (cancelPoint : Option ℕ) (completed : ℕ) : Bool :=
  match cancelPoint with
  | some k => k ≤ completed
  | none => false

/-- `_process_single_file`: statistics effect only (the success/failure
Boolean and the `processing_times` append). -/
def processSingleFile (s : State) (o : FileOutcome) : Bool × State :=
  (o.success,
   match o.recorded with
   | some d => { s with processing_times := s.processing_times ++ [d] }
   | none => s)

/-- The `for i, audio_file in enumerate(audio_files)` loop of
`process_batch`.  Returns the final state, whether the loop broke on the
cancellation flag, the number of `_process_single_file` invocations, and
the trace of states after each mutation (`processed_files` assignment,
then success/failure update). -/
def runLoop (cancelPoint : Option ℕ) :
    List FileOutcome → ℕ → State → State × Bool × ℕ × List State
  | [], _, s => (s, false, 0, [])
  | o :: rest, i, s =>
    if cancelObserved cancelPoint i then
      ({ s with cancel_requested := true }, true, 0, [])
    else
      let s1 := { s with processed_files := i + 1 }
      let (succ, s1') := processSingleFile s1 o
      let s2 :=
        if succ then { s1' with successful_files := s1'.successful_files + 1 }
        else { s1' with failed_files := s1'.failed_files + 1 }
      let r := runLoop cancelPoint rest (i + 1) s2
      (r.1, r.2.1, r.2.2.1 + 1, s1 :: s2 :: r.2.2.2)

/-- The result of one `process_batch` call: final statistics, terminal
phase, whether the summary document was written, the invocation count of
`_process_single_file`, and the state trace. -/
structure RunResult where
  final : State
  phase : Phase
  summaryWritten : Bool
  invocations : ℕ
  trace : List State
deriving Repr

/-- `BatchProcessor.process_batch` (transcription/batch_processor.py),
with file discovery abstracted into the outcome list (one entry per
discovered file, in discovery order).  `self` is the processor state
before the call; the body resets the statistics and the cancellation flag
before anything else, then loops, then writes the summary only when
`create_summary` is set and the flag is still clear. -/
def process_batch (self : State) (outcomes : List FileOutcome)
    (cancelPoint : Option ℕ) (create_summary : Bool) : RunResult :=
  let s0 : State :=
    { self with cancel_requested := false, processed_files := 0,
                successful_files := 0, failed_files := 0,
                processing_times := [],
                total_files := outcomes.length }
  let r := runLoop cancelPoint outcomes 0 s0
  let flagEnd := cancelObserved cancelPoint r.1.processed_files
  { final := { r.1 with cancel_requested := flagEnd }
    phase := if r.2.1 then .cancelled else .completed
    summaryWritten := create_summary && !flagEnd
    invocations := r.2.2.1
    trace := s0 :: r.2.2.2 }

/-- The output-path computation of `_process_single_file` when
`preserve_structure` is set (batch_processor.py lines 117-120):
`rel_path = FileUtils.get_relative_path(audio_file, input_folder)`,
`output_file = os.path.join(output_folder, os.path.splitext(rel_path)[0]
+ '.txt')`.  `relpathResult` abstracts `os.path.relpath`. -/
def outputFilePreserve (relpathResult : Except Unit String)
    (audio_file output_folder : String) : String :=
  FileUtils.joinPath output_folder
    (FileUtils.splitextRoot
      (FileUtils.get_relative_path relpathResult audio_file) ++ ".txt")

/-- The output-path computation of the flat branch (lines 121-123):
`base_name = os.path.splitext(file_name)[0]` with
`file_name = os.path.basename(audio_file)`,
`output_file = os.path.join(output_folder, base_name + '.txt')`. -/
def outputFileFlat (audio_file output_folder : String) : String :=
  FileUtils.joinPath output_folder
    (FileUtils.splitextRoot (FileUtils.basename audio_file) ++ ".txt")

end BatchProcessor

namespace FormatUtils

/-- Enough fuel for every inner `while` loop of
`insert_interval_timestamps` when `interval_seconds > 0`: one more than the
largest `floor (start / interval)` over the segments. -/
def sufficientFuel (segments : List Segment) (interval_seconds : ℚ) : ℕ :=
  (segments.map fun g => (⌊g.start / interval_seconds⌋).toNat).foldr max 0 + 1

/-- A line produced by the greedy packer of
`format_text_with_line_breaks`: the space-join of a non-empty group of
words, within the width bound whenever it holds two or more words. -/
def IsPack (n : ℕ) (l : List Char) : Prop :=
  ∃ ws, ws ≠ [] ∧ (∀ w ∈ ws, PyStr.GoodWord w) ∧ l = PyStr.joinSP ws ∧
    (2 ≤ ws.length → l.length ≤ n)

end FormatUtils

/-! ## Helper lemmas -/

namespace FormatUtils

lemma whileEmit_none_of_nonpos {I stop : ℚ} {fmt : String} (hI : I ≤ 0) :
    ∀ (fuel : ℕ) (cur : ℚ), cur ≤ stop →
      whileEmit I stop fmt fuel cur = none := by
  intro fuel
  induction fuel with
  | zero => intro cur h; simp [whileEmit, h]
  | succ n ih =>
    intro cur h
    rw [whileEmit, if_pos h, ih (cur + I) (by linarith)]
    rfl

end FormatUtils

namespace BatchProcessor

@[simp] lemma processSingleFile_fst (s : State) (o : FileOutcome) :
    (processSingleFile s o).1 = o.success := by
  cases o <;> rfl

@[simp] lemma processSingleFile_processed (s : State) (o : FileOutcome) :
    (processSingleFile s o).2.processed_files = s.processed_files := by
  cases o <;> rfl

@[simp] lemma processSingleFile_successful (s : State) (o : FileOutcome) :
    (processSingleFile s o).2.successful_files = s.successful_files := by
  cases o <;> rfl

@[simp] lemma processSingleFile_failed (s : State) (o : FileOutcome) :
    (processSingleFile s o).2.failed_files = s.failed_files := by
  cases o <;> rfl

@[simp] lemma processSingleFile_total (s : State) (o : FileOutcome) :
    (processSingleFile s o).2.total_files = s.total_files := by
  cases o <;> rfl

@[simp] lemma processSingleFile_times_length (s : State) (o : FileOutcome) :
    (processSingleFile s o).2.processing_times.length =
      s.processing_times.length + (if o.recorded.isSome then 1 else 0) := by
  cases o <;> simp [processSingleFile, FileOutcome.recorded]

lemma runLoop_cancel (k : ℕ) :
    ∀ (rest : List FileOutcome) (i : ℕ) (s : State),
      i ≤ k → k < i + rest.length → s.processed_files = i →
      (runLoop (some k) rest i s).1.processed_files = k ∧
      (runLoop (some k) rest i s).2.1 = true ∧
      (runLoop (some k) rest i s).2.2.1 = k - i := by
  intro rest
  induction rest with
  | nil => intro i s h1 h2 _; simp at h2; omega
  | cons o rest ih =>
    intro i s h1 h2 hp
    by_cases hik : k ≤ i
    · have hik' : i = k := le_antisymm h1 hik
      simp [runLoop, cancelObserved, hik, hp, hik']
    · have hobs : cancelObserved (some k) i = false := by
        simp [cancelObserved]; omega
      rw [runLoop]
      rw [hobs]
      simp only [Bool.false_eq_true, if_false]
      have := ih (i + 1)
        (if (processSingleFile { s with processed_files := i + 1 } o).1 then
          { (processSingleFile { s with processed_files := i + 1 } o).2 with
              successful_files :=
                (processSingleFile { s with processed_files := i + 1 } o).2.successful_files + 1 }
         else
          { (processSingleFile { s with processed_files := i + 1 } o).2 with
              failed_files :=
                (processSingleFile { s with processed_files := i + 1 } o).2.failed_files + 1 })
        (by omega) (by simp at h2 ⊢; omega) (by split <;> simp)
      refine ⟨this.1, this.2.1, ?_⟩
      rw [this.2.2]
      omega

lemma runLoop_none :
    ∀ (rest : List FileOutcome) (i : ℕ) (s : State),
      s.processed_files = i →
      (runLoop none rest i s).1.processed_files = i + rest.length ∧
      (runLoop none rest i s).2.1 = false ∧
      (runLoop none rest i s).2.2.1 = rest.length := by
  intro rest
  induction rest with
  | nil => intro i s hp; simpa [runLoop] using hp
  | cons o rest ih =>
    intro i s hp
    rw [runLoop]
    have hobs : cancelObserved none i = false := rfl
    rw [hobs]
    simp only [Bool.false_eq_true, if_false]
    have := ih (i + 1)
      (if (processSingleFile { s with processed_files := i + 1 } o).1 then
        { (processSingleFile { s with processed_files := i + 1 } o).2 with
            successful_files :=
              (processSingleFile { s with processed_files := i + 1 } o).2.successful_files + 1 }
       else
        { (processSingleFile { s with processed_files := i + 1 } o).2 with
            failed_files :=
              (processSingleFile { s with processed_files := i + 1 } o).2.failed_files + 1 })
      (by split <;> simp)
    refine ⟨by rw [this.1]; simp; omega, this.2.1, by rw [this.2.2]; simp⟩

lemma runLoop_stats (cp : Option ℕ) (N : ℕ) :
    ∀ (rest : List FileOutcome) (i : ℕ) (s : State),
      s.processed_files = i →
      s.successful_files + s.failed_files = i →
      s.total_files = N →
      i + rest.length ≤ N →
      ∃ m, m ≤ rest.length ∧
        (runLoop cp rest i s).1.processed_files = i + m ∧
        (runLoop cp rest i s).1.successful_files +
          (runLoop cp rest i s).1.failed_files = i + m ∧
        (runLoop cp rest i s).1.total_files = N ∧
        (runLoop cp rest i s).1.processing_times.length =
          s.processing_times.length +
            ((rest.take m).countP fun o => o.recorded.isSome) ∧
        ∀ s' ∈ (runLoop cp rest i s).2.2.2,
          s'.successful_files + s'.failed_files ≤ s'.processed_files ∧
          s'.processed_files ≤ s'.total_files ∧ s'.total_files = N := by
  intro rest
  induction rest with
  | nil =>
    intro i s hp hsum ht _
    exact ⟨0, by simp [runLoop, hp, hsum, ht]⟩
  | cons o rest ih =>
    intro i s hp hsum ht hb
    by_cases hobs : cancelObserved cp i = true
    · refine ⟨0, by simp, ?_⟩
      rw [runLoop, if_pos hobs]
      simp [hp, hsum, ht]
    · simp only [List.length_cons] at hb
      rw [runLoop, if_neg hobs]
      simp only [Bool.false_eq_true, if_false]
      obtain ⟨m', hm', h1, h2, h3, h4, h5⟩ := ih (i + 1)
        (if (processSingleFile { s with processed_files := i + 1 } o).1 then
          { (processSingleFile { s with processed_files := i + 1 } o).2 with
              successful_files :=
                (processSingleFile { s with processed_files := i + 1 } o).2.successful_files + 1 }
         else
          { (processSingleFile { s with processed_files := i + 1 } o).2 with
              failed_files :=
                (processSingleFile { s with processed_files := i + 1 } o).2.failed_files + 1 })
        (by split <;> simp)
        (by split <;> simp <;> omega)
        (by split <;> simp [ht])
        (by omega)
      refine ⟨m' + 1, by simp only [List.length_cons]; omega, ?_, ?_, ?_, ?_, ?_⟩
      · rw [h1]; omega
      · rw [h2]; omega
      · exact h3
      · have hS2 : (if (processSingleFile { s with processed_files := i + 1 } o).1 then
            { (processSingleFile { s with processed_files := i + 1 } o).2 with
                successful_files :=
                  (processSingleFile { s with processed_files := i + 1 } o).2.successful_files + 1 }
           else
            { (processSingleFile { s with processed_files := i + 1 } o).2 with
                failed_files :=
                  (processSingleFile { s with processed_files := i + 1 } o).2.failed_files + 1 }).processing_times.length =
            s.processing_times.length + (if o.recorded.isSome then 1 else 0) := by
          split <;> simp
        rw [h4, hS2, List.take_succ_cons, List.countP_cons]
        cases hrec : o.recorded.isSome <;> simp [hrec] <;> omega
      · intro s' hs'
        simp only [List.mem_cons] at hs'
        rcases hs' with h | h | h
        · subst h; refine ⟨by simp; omega, by simp [ht]; omega, by simp [ht]⟩
        · subst h
          refine ⟨?_, ?_, ?_⟩ <;>
            (split <;> simp [ht] <;> omega)
        · exact h5 s' h

end BatchProcessor

/-! ## Claim theorems -/

/-- C1: the claim says `insert_interval_timestamps` rejects
`interval_seconds <= 0` with a configuration error before producing output
and in particular always terminates.  The source has no such guard: for a
non-positive interval and any segment with non-empty stripped text the
`while current_interval <= segment_start` loop never raises the threshold
past the segment start, so the function neither rejects nor terminates —
for every fuel the embedded loop is still running (`none`), never an
error value.  This contradicts the spec's explicit edge case, so it is a
code bug, witnessed here at `interval_seconds = 0`. -/
theorem claim_C1_interval_not_rejected :
    ∀ (fuel : ℕ) (I : ℚ), I ≤ 0 →
      FormatUtils.insert_interval_timestamps fuel
        [{ start := 0, stop := 1, text := "hi" }] I "HH:MM:SS" = none := by
  intro fuel I hI
  rw [FormatUtils.insert_interval_timestamps]
  rw [if_neg (by simp)]
  rw [FormatUtils.segLoop]
  simp only []
  rw [if_neg (by decide), if_pos (by exact hI)]
  rw [FormatUtils.whileEmit_none_of_nonpos hI fuel I hI]

/-- C1 witness: the concrete run at `interval_seconds = 0` never
finishes, whatever the fuel. -/
theorem claim_C1_witness :
    FormatUtils.insert_interval_timestamps 100
      [{ start := 0, stop := 1, text := "hi" }] 0 "HH:MM:SS" = none :=
  claim_C1_interval_not_rejected 100 0 (by decide)

/-- C2: the claim says the whisper branch of `transcribe_with_metadata`
with `timestamps_enabled` false returns the segment texts joined by
spaces and raises no error.  In the source the `else` branch evaluates
`segment_list`, a local that is only assigned inside the
timestamps-enabled branch, so every such call raises `UnboundLocalError`
instead (code bug; the faster_whisper branch and the sibling `transcribe`
method show the intended join). -/
theorem claim_C2_whisper_unbound_local :
    ∀ (fuel : ℕ) (result : Transcriber.WhisperResult)
      (options : Option Transcriber.TsOptions),
      Transcriber.tsEnabled options = false →
      Transcriber.transcribe_with_metadata_whisper fuel result options =
        some (.error (.unboundLocal "segment_list")) := by
  intro fuel result options h
  rw [Transcriber.transcribe_with_metadata_whisper]
  simp [h]

/-- C2 witness: a concrete whisper transcription with timestamps disabled
hits the `UnboundLocalError`. -/
theorem claim_C2_witness :
    Transcriber.transcribe_with_metadata_whisper 5
      { segments := some [{ start := some 0, stop := some 1,
                            text := some "hi", avg_logprob := some 0 }],
        language := some "en", duration := some 9 }
      (some { timestamps_enabled := false, timestamp_format := none,
              timestamp_interval := none }) =
      some (.error (.unboundLocal "segment_list")) :=
  claim_C2_whisper_unbound_local 5 _ _ (by decide)

/-- C8: the claim (and the spec's testable property) says
`format_timestamp(3725.678, 'timecode') == "[01:02:05.678]"`.  The Python
literal `3725.678` is the binary64 value `8192852564698464 / 2^41`
(slightly below 3725.678); on that value `seconds % 1` is exact in
binary64 (`1490937767264 / 2^41`), the product `* 1000` is again exactly
representable (`1490937767264000 < 2^53`), and `int()` truncates the
result `677.9999999998836` to `677` — so the source prints
"[01:02:05.677]", not "[01:02:05.678]".  Under exact arithmetic on the
decimal `3725.678` the same code yields 678, so the deviation is the
float-truncation slip, contradicting the spec's stated test (code bug). -/
theorem claim_C8_timecode_value :
    FormatUtils.format_timestamp ((8192852564698464 : ℚ) / 2 ^ 41) "timecode"
        = "[01:02:05.677]" ∧
      FormatUtils.format_timestamp ((3725678 : ℚ) / 1000) "timecode"
        = "[01:02:05.678]" := by
  decide

/-- C3 counterexample: the claim asserts the marker count equals
`floor(last_segment.start / interval) + 1` for every non-empty ascending
segment sequence.  A single segment whose text is empty (skipped by the
source before any threshold check) already refutes it: one marker is
emitted but the formula demands `floor(10/5) + 1 = 3`. -/
theorem claim_C3_counterexample :
    (FormatUtils.insert_interval_timestamps 1
        [{ start := 10, stop := 11, text := "" }] 5 "HH:MM:SS").map
      FormatUtils.markerCount = some 1 ∧
    ⌊(10 : ℚ) / 5⌋ + 1 ≠ (1 : ℤ) := by
  decide

/-- C4 counterexample: the claim asserts `processing_times` has exactly
one entry for every file that reached the processed state, failed files
included.  A batch whose single file fails before the timing append
(e.g. the transcription call raises) reaches `processed_count = 1` with
an empty `processing_times`. -/
theorem claim_C4_counterexample :
    (BatchProcessor.process_batch ⟨false, 0, 0, 0, 0, []⟩
        [.failBeforeRecord] none true).final.processed_files = 1 ∧
    (BatchProcessor.process_batch ⟨false, 0, 0, 0, 0, []⟩
        [.failBeforeRecord] none true).final.processing_times.length = 0 := by
  decide

/-- C4 (amended): at every observation point of a `process_batch` run, and
in the final state, `successful + failed ≤ processed ≤ total`; and
`processing_times` has exactly one entry per processed file whose outcome
records a duration (skips as zero, successes, and failures occurring after
the timing append) — failures before the append contribute none. -/
theorem claim_C4_batch_invariants :
    ∀ (self : BatchProcessor.State)
      (outcomes : List BatchProcessor.FileOutcome)
      (cp : Option ℕ) (cs : Bool) (s' : BatchProcessor.State),
      s' ∈ (BatchProcessor.process_batch self outcomes cp cs).trace →
      (s'.successful_files + s'.failed_files ≤ s'.processed_files ∧
        s'.processed_files ≤ s'.total_files) ∧
      (BatchProcessor.process_batch self outcomes cp cs).final.successful_files +
          (BatchProcessor.process_batch self outcomes cp cs).final.failed_files ≤
        (BatchProcessor.process_batch self outcomes cp cs).final.processed_files ∧
      (BatchProcessor.process_batch self outcomes cp cs).final.processed_files ≤
        (BatchProcessor.process_batch self outcomes cp cs).final.total_files ∧
      (BatchProcessor.process_batch self outcomes cp cs).final.processing_times.length =
        (outcomes.take
            (BatchProcessor.process_batch self outcomes cp cs).final.processed_files).countP
          (fun o => o.recorded.isSome) := by
  intro self outcomes cp cs s' hs'
  obtain ⟨m, hm, h1, h2, h3, h4, h5⟩ :=
    BatchProcessor.runLoop_stats cp outcomes.length outcomes 0
      { self with cancel_requested := false, processed_files := 0,
                  successful_files := 0, failed_files := 0,
                  processing_times := [],
                  total_files := outcomes.length }
      rfl rfl rfl (by omega)
  refine ⟨?_, ?_, ?_, ?_⟩
  · simp only [BatchProcessor.process_batch, List.mem_cons] at hs'
    rcases hs' with h | h
    · subst h; simp
    · exact ⟨(h5 s' h).1, (h5 s' h).2.1⟩
  · simp only [BatchProcessor.process_batch]
    simp only [h1, h2]
    omega
  · simp only [BatchProcessor.process_batch]
    simp only [h1, h3]
    omega
  · simp only [BatchProcessor.process_batch]
    simp only [h1, h4]
    simp

/-- C4 witness: a one-file successful batch instantiates the amended
invariants at the mid-run trace state reached after
`processed_files := 1`. -/
theorem claim_C4_witness :
    ((⟨false, 1, 1, 0, 0, []⟩ : BatchProcessor.State) ∈
      (BatchProcessor.process_batch ⟨false, 0, 0, 0, 0, []⟩
        [.ok 1] none true).trace) ∧
    ((⟨false, 1, 1, 0, 0, []⟩ : BatchProcessor.State).successful_files +
          (⟨false, 1, 1, 0, 0, []⟩ : BatchProcessor.State).failed_files ≤
        (⟨false, 1, 1, 0, 0, []⟩ : BatchProcessor.State).processed_files ∧
      (⟨false, 1, 1, 0, 0, []⟩ : BatchProcessor.State).processed_files ≤
        (⟨false, 1, 1, 0, 0, []⟩ : BatchProcessor.State).total_files) ∧
    (BatchProcessor.process_batch ⟨false, 0, 0, 0, 0, []⟩
          [.ok 1] none true).final.successful_files +
        (BatchProcessor.process_batch ⟨false, 0, 0, 0, 0, []⟩
          [.ok 1] none true).final.failed_files ≤
      (BatchProcessor.process_batch ⟨false, 0, 0, 0, 0, []⟩
          [.ok 1] none true).final.processed_files ∧
    (BatchProcessor.process_batch ⟨false, 0, 0, 0, 0, []⟩
        [.ok 1] none true).final.processed_files ≤
      (BatchProcessor.process_batch ⟨false, 0, 0, 0, 0, []⟩
        [.ok 1] none true).final.total_files ∧
    (BatchProcessor.process_batch ⟨false, 0, 0, 0, 0, []⟩
        [.ok 1] none true).final.processing_times.length =
      (([.ok 1] : List BatchProcessor.FileOutcome).take
          (BatchProcessor.process_batch ⟨false, 0, 0, 0, 0, []⟩
            [.ok 1] none true).final.processed_files).countP
        (fun o => o.recorded.isSome) :=
  ⟨by decide, claim_C4_batch_invariants _ _ _ _ _ (by decide)⟩

/-- C5: if `cancel()` is called after the k-th of n files completes
(k < n), the run processes no further file: the final statistics report
`processed_files = k`, exactly `k` invocations of `_process_single_file`,
the run ends in the Cancelled phase, and the summary document is not
written even when `create_summary` is set. -/
theorem claim_C5_cancellation :
    ∀ (self : BatchProcessor.State)
      (outcomes : List BatchProcessor.FileOutcome) (k : ℕ) (cs : Bool),
      k < outcomes.length →
      (BatchProcessor.process_batch self outcomes (some k) cs).final.processed_files = k ∧
      (BatchProcessor.process_batch self outcomes (some k) cs).phase = .cancelled ∧
      (BatchProcessor.process_batch self outcomes (some k) cs).summaryWritten = false ∧
      (BatchProcessor.process_batch self outcomes (some k) cs).invocations = k := by
  intro self outcomes k cs hk
  have h := BatchProcessor.runLoop_cancel k outcomes 0
    { self with cancel_requested := false, processed_files := 0,
                successful_files := 0, failed_files := 0,
                processing_times := [],
                total_files := outcomes.length }
    (Nat.zero_le k) (by omega) rfl
  have hflag : BatchProcessor.cancelObserved (some k)
      (BatchProcessor.runLoop (some k) outcomes 0
        { self with cancel_requested := false, processed_files := 0,
                    successful_files := 0, failed_files := 0,
                    processing_times := [],
                    total_files := outcomes.length }).1.processed_files = true := by
    rw [h.1]; simp [BatchProcessor.cancelObserved]
  refine ⟨?_, ?_, ?_, ?_⟩ <;>
    simp [BatchProcessor.process_batch, hflag, h.1, h.2.1, h.2.2,
      BatchProcessor.cancelObserved]

/-- C5 witness: cancelling after the 2nd of 5 files. -/
theorem claim_C5_witness :
    (BatchProcessor.process_batch ⟨false, 0, 0, 0, 0, []⟩
        [.ok 1, .ok 2, .ok 3, .ok 4, .ok 5] (some 2) true).final.processed_files = 2 ∧
    (BatchProcessor.process_batch ⟨false, 0, 0, 0, 0, []⟩
        [.ok 1, .ok 2, .ok 3, .ok 4, .ok 5] (some 2) true).phase = .cancelled ∧
    (BatchProcessor.process_batch ⟨false, 0, 0, 0, 0, []⟩
        [.ok 1, .ok 2, .ok 3, .ok 4, .ok 5] (some 2) true).summaryWritten = false ∧
    (BatchProcessor.process_batch ⟨false, 0, 0, 0, 0, []⟩
        [.ok 1, .ok 2, .ok 3, .ok 4, .ok 5] (some 2) true).invocations = 2 :=
  claim_C5_cancellation _ _ 2 true (by decide)

/-- C7 counterexample: the claim says discovery over a missing or
unreadable root reports an error in both modes.  In recursive mode the
source iterates `os.walk(folder)` with the default `onerror=None`, which
swallows the failure: the result is the empty list with no message
printed at all (the claimed error report does not happen). -/
theorem claim_C7_counterexample :
    FileUtils.get_audio_files
      { walkTriples := [], listdirResult := .error .fileNotFound,
        isfile := fun _ => false } "/missing" true = ([], []) := by
  rfl

/-- C7 (amended): on a missing or unreadable root directory
`get_audio_files` returns the empty list and propagates no exception in
both modes; non-recursive mode prints exactly one error message (the
`except` clauses cover `FileNotFoundError`, `PermissionError` and any
other `Exception`), while recursive mode stays silent. -/
theorem claim_C7_discovery_degrades :
    ∀ (fs : FileUtils.FS) (folder : String) (e : FileUtils.OSErr),
      fs.walkTriples = [] → fs.listdirResult = .error e →
      FileUtils.get_audio_files fs folder false =
        ([], [FileUtils.listdirErrMsg folder e]) ∧
      FileUtils.get_audio_files fs folder true = ([], []) := by
  intro fs folder e hw hl
  constructor
  · simp [FileUtils.get_audio_files, hl]
  · simp [FileUtils.get_audio_files, hw, FileUtils.pySorted]

/-- C7 witness: a permission-denied root. -/
theorem claim_C7_witness :
    FileUtils.get_audio_files
        { walkTriples := [], listdirResult := .error .permissionError,
          isfile := fun _ => false } "/locked" false =
      ([], [FileUtils.listdirErrMsg "/locked" .permissionError]) ∧
    FileUtils.get_audio_files
        { walkTriples := [], listdirResult := .error .permissionError,
          isfile := fun _ => false } "/locked" true = ([], []) :=
  claim_C7_discovery_degrades _ "/locked" .permissionError rfl rfl

/-- C9: `process_batch` overwrites `self.cancel_requested` with `False`
as its first statement, before file discovery, so the run is independent
of any `cancel()` issued before the call (first conjunct: the result does
not depend on the incoming processor state at all), and with no in-run
cancellation every discovered file is processed and the run completes. -/
theorem claim_C9_cancel_reset :
    ∀ (self self' : BatchProcessor.State)
      (outcomes : List BatchProcessor.FileOutcome)
      (cancelPoint : Option ℕ) (cs : Bool),
      BatchProcessor.process_batch self outcomes cancelPoint cs =
        BatchProcessor.process_batch self' outcomes cancelPoint cs ∧
      (BatchProcessor.process_batch self outcomes none cs).phase = .completed ∧
      (BatchProcessor.process_batch self outcomes none cs).final.processed_files =
        outcomes.length := by
  intro self self' outcomes cp cs
  have h := BatchProcessor.runLoop_none outcomes 0
    { self with cancel_requested := false, processed_files := 0,
                successful_files := 0, failed_files := 0,
                processing_times := [],
                total_files := outcomes.length } rfl
  refine ⟨rfl, ?_, ?_⟩ <;>
    simp [BatchProcessor.process_batch, h.1, h.2.1,
      BatchProcessor.cancelObserved]

/-- C10: when `preserve_structure` is set and `os.path.relpath` raises
`ValueError`, `get_relative_path` silently falls back to the file's
basename, so the computed output path coincides with the flat branch's
path — the file's output location is flattened rather than the file
failed (the fallback returns normally; no exception reaches
`_process_single_file`). -/
theorem claim_C10_relpath_fallback :
    ∀ (audio_file output_folder : String),
      BatchProcessor.outputFilePreserve (.error ()) audio_file output_folder =
        BatchProcessor.outputFileFlat audio_file output_folder := by
  intro f out
  rfl

namespace FormatUtils

lemma whileEmit_exit {I stop : ℚ} {fmt : String} {cur : ℚ} (h : stop < cur) :
    ∀ fuel, whileEmit I stop fmt fuel cur = some ([], cur) := by
  intro fuel
  cases fuel <;> simp [whileEmit, not_le.mpr h]

lemma whileEmit_spec {I stop : ℚ} {fmt : String} (hI : 0 < I) :
    ∀ (fuel t : ℕ), 1 ≤ t → (t : ℚ) * I ≤ stop →
      stop < ((t + fuel : ℕ) : ℚ) * I →
      ∃ ms, whileEmit I stop fmt fuel ((t : ℚ) * I) =
          some (ms, ((⌊stop / I⌋ + 1 : ℤ) : ℚ) * I) ∧
        (ms.length : ℤ) = ⌊stop / I⌋ + 1 - t ∧
        ∀ m ∈ ms, m.isMarker = true := by
  intro fuel
  induction fuel with
  | zero =>
    intro t _ h2 h3
    exfalso
    push_cast at h3
    linarith
  | succ n ih =>
    intro t ht h2 h3
    rw [whileEmit, if_pos h2]
    have hq : (t : ℚ) * I + I = ((t + 1 : ℕ) : ℚ) * I := by push_cast; ring
    by_cases hnext : ((t + 1 : ℕ) : ℚ) * I ≤ stop
    · obtain ⟨ms, hms, hlen, hmk⟩ := ih (t + 1) (by omega) hnext
        (by push_cast at h3 ⊢; linarith)
      rw [hq, hms]
      refine ⟨.marker (format_timestamp ((t : ℚ) * I) fmt) :: ms, rfl, ?_, ?_⟩
      · simp only [List.length_cons]
        push_cast
        omega
      · intro m hm
        rcases List.mem_cons.mp hm with h | h
        · subst h; rfl
        · exact hmk m h
    · have hstop : stop < ((t + 1 : ℕ) : ℚ) * I := not_le.mp hnext
      have hteq : (t : ℤ) = ⌊stop / I⌋ := by
        symm
        rw [Int.floor_eq_iff]
        constructor
        · push_cast
          rw [le_div_iff hI]
          exact h2
        · push_cast
          rw [div_lt_iff hI]
          push_cast at hstop
          linarith
      rw [hq, whileEmit_exit (by exact hstop)]
      refine ⟨[.marker (format_timestamp ((t : ℚ) * I) fmt)], ?_, ?_, ?_⟩
      · rw [show ((⌊stop / I⌋ + 1 : ℤ) : ℚ) * I = ((t + 1 : ℕ) : ℚ) * I by
          rw [← hteq]; push_cast; ring]
        rfl
      · simp only [List.length_cons, List.length_nil]
        omega
      · intro m hm
        simp at hm
        subst hm
        rfl

end FormatUtils

namespace FormatUtils

lemma markerCount_append (a b : List Entry) :
    markerCount (a ++ b) = markerCount a + markerCount b :=
  List.countP_append _ _ _

lemma markerCount_flush (res : List Entry) (ct : List String) :
    markerCount (if ct = [] then res
      else res ++ [.block (" ".intercalate ct)]) = markerCount res := by
  split
  · rfl
  · rw [markerCount_append]; rfl

lemma segLoop_count {I : ℚ} {fmt : String} (hI : 0 < I) :
    ∀ (segs : List Segment) (fuel : ℕ) (t : ℕ) (ct : List String)
      (res : List Entry) (glast : Segment),
      1 ≤ t →
      segs.getLast? = some glast →
      (∀ g ∈ segs, 0 ≤ g.start) →
      (∀ g ∈ segs, ((t : ℚ) - 1) * I ≤ g.start) →
      List.Pairwise (fun a b => a.start ≤ b.start) segs →
      (∀ g ∈ segs, g.start < (fuel : ℚ) * I) →
      markerCount res = t →
      PyStr.stripS glast.text ≠ "" →
      ∃ r, segLoop I fmt fuel segs ((t : ℚ) * I) ct res = some r ∧
        (markerCount r.1 : ℤ) = ⌊glast.start / I⌋ + 1 := by
  intro segs
  induction segs with
  | nil => intro fuel t ct res glast _ hlast; simp at hlast
  | cons seg rest ih =>
    intro fuel t ct res glast ht hlast h0 hlow hpair hfuel hcount hstrip
    rw [segLoop]
    simp only []
    by_cases hempty : PyStr.stripS seg.text = ""
    · rw [if_pos hempty]
      cases rest with
      | nil =>
        exfalso
        simp at hlast
        subst hlast
        exact hstrip hempty
      | cons r rs =>
        exact ih fuel t ct res glast ht
          (by rwa [List.getLast?_cons_cons] at hlast)
          (fun g hg => h0 g (List.mem_cons_of_mem _ hg))
          (fun g hg => hlow g (List.mem_cons_of_mem _ hg))
          hpair.of_cons
          (fun g hg => hfuel g (List.mem_cons_of_mem _ hg))
          hcount hstrip
    · rw [if_neg hempty]
      by_cases hge : (t : ℚ) * I ≤ seg.start
      · rw [if_pos hge]
        have hs0 : (0 : ℚ) ≤ seg.start := h0 seg (List.mem_cons_self _ _)
        have hfl : (0 : ℤ) ≤ ⌊seg.start / I⌋ :=
          Int.floor_nonneg.mpr (div_nonneg hs0 hI.le)
        have hfuelbound : seg.start < ((t + fuel : ℕ) : ℚ) * I := by
          have h1 := hfuel seg (List.mem_cons_self _ _)
          have h2 : (0 : ℚ) ≤ (t : ℚ) := by positivity
          push_cast
          nlinarith
        obtain ⟨ms, hms, hlen, hmk⟩ := whileEmit_spec hI fuel t ht hge hfuelbound
        rw [hms]
        dsimp only
        have ht'cast : (((⌊seg.start / I⌋ + 1).toNat : ℕ) : ℤ) =
            ⌊seg.start / I⌋ + 1 := Int.toNat_of_nonneg (by omega)
        have hcur' : ((⌊seg.start / I⌋ + 1 : ℤ) : ℚ) * I =
            (((⌊seg.start / I⌋ + 1).toNat : ℕ) : ℚ) * I := by
          have : (((⌊seg.start / I⌋ + 1).toNat : ℕ) : ℚ) =
              ((⌊seg.start / I⌋ + 1 : ℤ) : ℚ) := by exact_mod_cast ht'cast
          rw [this]
        have hmslen : markerCount ms = ms.length :=
          List.countP_eq_length.mpr hmk
        have hnewcount : markerCount
            ((if ct = [] then res
              else res ++ [.block (" ".intercalate ct)]) ++ ms) =
            (⌊seg.start / I⌋ + 1).toNat := by
          rw [markerCount_append, markerCount_flush, hcount, hmslen]
          omega
        rw [hcur']
        cases rest with
        | nil =>
          have hgl : seg = glast := by simpa using hlast
          subst hgl
          rw [segLoop]
          exact ⟨_, rfl, by rw [hnewcount]; exact_mod_cast ht'cast⟩
        | cons r rs =>
          refine ih fuel ((⌊seg.start / I⌋ + 1).toNat)
            [PyStr.stripS seg.text] _ glast (by omega)
            (by rwa [List.getLast?_cons_cons] at hlast)
            (fun g hg => h0 g (List.mem_cons_of_mem _ hg))
            ?_
            hpair.of_cons
            (fun g hg => hfuel g (List.mem_cons_of_mem _ hg))
            hnewcount hstrip
          intro g hg
          have hseg_le : seg.start ≤ g.start :=
            (List.pairwise_cons.mp hpair).1 g hg
          have hfloor_le : ((⌊seg.start / I⌋ : ℤ) : ℚ) * I ≤ seg.start := by
            rw [← le_div_iff hI]
            exact Int.floor_le _
          have : ((((⌊seg.start / I⌋ + 1).toNat : ℕ) : ℚ) - 1) =
              ((⌊seg.start / I⌋ : ℤ) : ℚ) := by
            have : (((⌊seg.start / I⌋ + 1).toNat : ℕ) : ℚ) =
                ((⌊seg.start / I⌋ + 1 : ℤ) : ℚ) := by exact_mod_cast ht'cast
            rw [this]
            push_cast
            ring
          rw [this]
          linarith
      · rw [if_neg hge]
        have hflooreq : ⌊seg.start / I⌋ = (t : ℤ) - 1 := by
          rw [Int.floor_eq_iff]
          constructor
          · push_cast
            rw [le_div_iff hI]
            have := hlow seg (List.mem_cons_self _ _)
            push_cast at this
            linarith
          · push_cast
            rw [div_lt_iff hI]
            have := not_le.mp hge
            linarith
        cases rest with
        | nil =>
          have hgl : seg = glast := by simpa using hlast
          subst hgl
          rw [segLoop]
          refine ⟨_, rfl, ?_⟩
          rw [hcount, hflooreq]
          omega
        | cons r rs =>
          refine ih fuel t (ct ++ [PyStr.stripS seg.text]) res glast ht
            (by rwa [List.getLast?_cons_cons] at hlast)
            (fun g hg => h0 g (List.mem_cons_of_mem _ hg))
            ?_
            hpair.of_cons
            (fun g hg => hfuel g (List.mem_cons_of_mem _ hg))
            hcount hstrip
          intro g hg
          have hseg_le : seg.start ≤ g.start :=
            (List.pairwise_cons.mp hpair).1 g hg
          have := hlow seg (List.mem_cons_self _ _)
          linarith

end FormatUtils

lemma le_foldr_max : ∀ (l : List ℕ) (a : ℕ), a ∈ l → a ≤ l.foldr max 0 := by
  intro l
  induction l with
  | nil => intro a ha; simp at ha
  | cons b bs ih =>
    intro a ha
    rcases List.mem_cons.mp ha with h | h
    · subst h; exact le_max_left _ _
    · exact le_trans (ih a h) (le_max_right _ _)

/-- C3 (amended): for every non-empty segment sequence, ascending by
start with non-negative starts, and every `interval_seconds > 0`, if the
last segment's trimmed text is non-empty then the number of timestamp
markers emitted by `insert_interval_timestamps` equals
`floor(last.start / interval) + 1` (the unconditional 0-marker plus one
marker per passed threshold, including thresholds crossed inside silent
gaps), and the run terminates with the explicit fuel bound. -/
theorem claim_C3_marker_count :
    ∀ (segs : List FormatUtils.Segment) (I : ℚ) (fmt : String)
      (glast : FormatUtils.Segment),
      0 < I →
      segs.getLast? = some glast →
      (∀ g ∈ segs, 0 ≤ g.start) →
      List.Pairwise (fun a b => a.start ≤ b.start) segs →
      PyStr.stripS glast.text ≠ "" →
      ∃ es, FormatUtils.insert_interval_timestamps
          (FormatUtils.sufficientFuel segs I) segs I fmt = some es ∧
        (FormatUtils.markerCount es : ℤ) = ⌊glast.start / I⌋ + 1 := by
  intro segs I fmt glast hI hlast h0 hpair hstrip
  have hne : ¬(segs = []) := by intro h; subst h; simp at hlast
  have hfuel : ∀ g ∈ segs,
      g.start < ((FormatUtils.sufficientFuel segs I : ℕ) : ℚ) * I := by
    intro g hg
    have h1 : (⌊g.start / I⌋).toNat ≤
        (segs.map fun g => (⌊g.start / I⌋).toNat).foldr max 0 :=
      le_foldr_max _ _ (List.mem_map_of_mem _ hg)
    have h2 : g.start / I < (⌊g.start / I⌋ : ℚ) + 1 := Int.lt_floor_add_one _
    have h3 : (0 : ℤ) ≤ ⌊g.start / I⌋ :=
      Int.floor_nonneg.mpr (div_nonneg (h0 g hg) hI.le)
    have h4 : g.start / I < ((FormatUtils.sufficientFuel segs I : ℕ) : ℚ) := by
      refine lt_of_lt_of_le h2 ?_
      rw [FormatUtils.sufficientFuel]
      push_cast
      have h5 : ((⌊g.start / I⌋).toNat : ℤ) = ⌊g.start / I⌋ :=
        Int.toNat_of_nonneg h3
      have h6 : ((⌊g.start / I⌋ : ℤ) : ℚ) ≤
          (((segs.map fun g => (⌊g.start / I⌋).toNat).foldr max 0 : ℕ) : ℚ) := by
        exact_mod_cast le_trans (le_of_eq h5.symm) (Int.ofNat_le.mpr h1)
      linarith
    exact (div_lt_iff hI).mp h4
  rw [FormatUtils.insert_interval_timestamps, if_neg hne]
  obtain ⟨r, hr, hcnt⟩ := FormatUtils.segLoop_count hI segs
      (FormatUtils.sufficientFuel segs I) 1 []
      [.marker (FormatUtils.format_timestamp 0 fmt)] glast le_rfl hlast h0
      (by intro g hg; push_cast; simpa using h0 g hg)
      hpair hfuel rfl hstrip
  rw [show ((1 : ℕ) : ℚ) * I = I from by push_cast; ring] at hr
  rcases r with ⟨res, cur, ct⟩
  rw [hr]
  dsimp only
  refine ⟨_, rfl, ?_⟩
  rw [FormatUtils.markerCount_flush]
  exact hcnt

/-- C3 witness: two segments at 0s and 65s with a 30s interval produce
`floor(65/30) + 1 = 3` markers. -/
theorem claim_C3_witness :
    ∃ es, FormatUtils.insert_interval_timestamps
        (FormatUtils.sufficientFuel
          [{ start := 0, stop := 1, text := "a" },
           { start := 65, stop := 66, text := "b" }] 30)
        [{ start := 0, stop := 1, text := "a" },
         { start := 65, stop := 66, text := "b" }] 30 "HH:MM:SS" = some es ∧
      (FormatUtils.markerCount es : ℤ) = ⌊(65 : ℚ) / 30⌋ + 1 :=
  claim_C3_marker_count
    [{ start := 0, stop := 1, text := "a" },
     { start := 65, stop := 66, text := "b" }] 30 "HH:MM:SS"
    { start := 65, stop := 66, text := "b" }
    (by decide) (by decide) (by decide) (by decide) (by decide)


namespace PyStr

lemma splitNL_ne_nil (l : List Char) : splitNL l ≠ [] := by
  cases l with
  | nil => simp [splitNL]
  | cons c cs =>
    rw [splitNL]
    rcases h : splitNL cs with _ | ⟨p, ps⟩
    · simp
    · by_cases hc : c = '\n' <;> simp [hc]

lemma splitNL_append_lf (a r : List Char) :
    splitNL (a ++ '\n' :: r) = splitNL a ++ splitNL r := by
  induction a with
  | nil =>
    rw [List.nil_append]
    rcases h : splitNL r with _ | ⟨p, ps⟩
    · exact absurd h (splitNL_ne_nil r)
    · simp [splitNL, h]
  | cons c cs ih =>
    rw [List.cons_append, splitNL, ih, splitNL]
    rcases h : splitNL cs with _ | ⟨p, ps⟩
    · exact absurd h (splitNL_ne_nil cs)
    · by_cases hc : c = '\n' <;> simp [hc]

lemma splitNL_no_lf (l : List Char) (h : '\n' ∉ l) : splitNL l = [l] := by
  induction l with
  | nil => rfl
  | cons c cs ih =>
    rw [splitNL, ih (fun hm => h (List.mem_cons_of_mem _ hm))]
    have hc : ¬(c = '\n') := fun hc => h (hc ▸ List.mem_cons_self _ _)
    simp [hc]

lemma joinNL_cons_cons (a b : List Char) (rest : List (List Char)) :
    joinNL (a :: b :: rest) = a ++ '\n' :: joinNL (b :: rest) := by
  rw [joinNL, joinSep]
  simp [joinNL]

lemma splitNL_joinNL_flat :
    ∀ (ls : List (List Char)), ls ≠ [] →
      splitNL (joinNL ls) = ls.flatMap splitNL := by
  intro ls
  induction ls with
  | nil => intro h; exact absurd rfl h
  | cons a rest ih =>
    intro _
    cases rest with
    | nil => simp [joinNL, joinSep]
    | cons b rs =>
      rw [joinNL_cons_cons, splitNL_append_lf, ih (by simp)]
      simp

lemma splitNL_joinNL_of_noNL :
    ∀ (ls : List (List Char)), ls ≠ [] → (∀ l ∈ ls, '\n' ∉ l) →
      splitNL (joinNL ls) = ls := by
  intro ls
  induction ls with
  | nil => intro h; exact absurd rfl h
  | cons a rest ih =>
    intro _ hno
    cases rest with
    | nil => simpa [joinNL, joinSep] using splitNL_no_lf a (hno a (by simp))
    | cons b rs =>
      rw [joinNL_cons_cons, splitNL_append_lf,
        splitNL_no_lf a (hno a (by simp)),
        ih (by simp) (fun l hl => hno l (List.mem_cons_of_mem _ hl))]
      rfl

lemma joinNL_append :
    ∀ (as : List (List Char)) (bs : List (List Char)), as ≠ [] → bs ≠ [] →
      joinNL (as ++ bs) = joinNL as ++ '\n' :: joinNL bs := by
  intro as
  induction as with
  | nil => intro bs h _; exact absurd rfl h
  | cons a rest ih =>
    intro bs _ hb
    cases rest with
    | nil =>
      cases bs with
      | nil => exact absurd rfl hb
      | cons b bs2 =>
        rw [List.singleton_append, joinNL_cons_cons]
        rfl
    | cons a2 rs =>
      have h1 : (a :: a2 :: rs) ++ bs = a :: a2 :: (rs ++ bs) := rfl
      rw [h1, joinNL_cons_cons, joinNL_cons_cons a a2 rs]
      have h2 : a2 :: (rs ++ bs) = (a2 :: rs) ++ bs := rfl
      rw [h2, ih bs (by simp) hb]
      simp

lemma flatMap_ne_nil (g : List Char → List (List Char)) :
    ∀ (xs : List (List Char)), xs ≠ [] → (∀ x ∈ xs, g x ≠ []) →
      xs.flatMap g ≠ [] := by
  intro xs
  cases xs with
  | nil => intro h; exact absurd rfl h
  | cons x rest =>
    intro _ hg
    simp only [List.flatMap_cons]
    intro hcontra
    exact hg x (by simp) (List.append_eq_nil.mp hcontra).1

lemma joinNL_flatMap (g : List Char → List (List Char)) :
    ∀ (xs : List (List Char)), xs ≠ [] → (∀ x ∈ xs, g x ≠ []) →
      joinNL (xs.flatMap g) = joinNL (xs.map fun x => joinNL (g x)) := by
  intro xs
  induction xs with
  | nil => intro h; exact absurd rfl h
  | cons x rest ih =>
    intro _ hg
    cases rest with
    | nil => simp [joinNL, joinSep]
    | cons y rs =>
      have hflat : (y :: rs).flatMap g ≠ [] :=
        flatMap_ne_nil g _ (by simp)
          (fun z hz => hg z (List.mem_cons_of_mem _ hz))
      rw [List.flatMap_cons,
        joinNL_append _ _ (hg x (by simp)) hflat,
        ih (by simp) (fun z hz => hg z (List.mem_cons_of_mem _ hz))]
      simp only [List.map_cons]
      rw [joinNL_cons_cons]

end PyStr

namespace PyStr

lemma strip_eq_nil_iff (l : List Char) :
    strip l = [] ↔ ∀ c ∈ l, pyIsSpace c = true := by
  rw [strip, List.reverse_eq_nil_iff, List.dropWhile_eq_nil_iff]
  constructor
  · intro h c hc
    rw [← List.takeWhile_append_dropWhile (p := pyIsSpace) (l := l)] at hc
    rcases List.mem_append.mp hc with h1 | h1
    · exact List.mem_takeWhile_imp h1
    · exact h c (List.mem_reverse.mpr h1)
  · intro h c hc
    exact h c ((List.dropWhile_sublist _).subset (List.mem_reverse.mp hc))

lemma splitWSAux_nonspace :
    ∀ (w l cur : List Char), (∀ c ∈ w, pyIsSpace c = false) →
      splitWSAux (w ++ l) cur = splitWSAux l (w.reverse ++ cur) := by
  intro w
  induction w with
  | nil => intro l cur _; simp
  | cons c cs ih =>
    intro l cur h
    rw [List.cons_append, splitWSAux, h c (by simp)]
    simp only [Bool.false_eq_true, if_false]
    rw [ih l (c :: cur) (fun d hd => h d (by simp [hd]))]
    simp

lemma splitWSAux_words :
    ∀ (l cur : List Char), (∀ c ∈ cur, pyIsSpace c = false) →
      ∀ w ∈ splitWSAux l cur, GoodWord w := by
  intro l
  induction l with
  | nil =>
    intro cur hcur w hw
    rw [splitWSAux] at hw
    split at hw
    · simp at hw
    · rename_i hcurne
      simp only [List.mem_singleton] at hw
      subst hw
      exact ⟨by simpa using hcurne,
        fun c hc => hcur c (List.mem_reverse.mp hc)⟩
  | cons c cs ih =>
    intro cur hcur w hw
    rw [splitWSAux] at hw
    by_cases hc : pyIsSpace c = true
    · rw [if_pos hc] at hw
      split at hw
      · exact ih [] (by simp) w hw
      · rename_i hcurne
        rcases List.mem_cons.mp hw with h | h
        · subst h
          exact ⟨by simpa using hcurne,
            fun d hd => hcur d (List.mem_reverse.mp hd)⟩
        · exact ih [] (by simp) w h
    · rw [Bool.not_eq_true] at hc
      rw [hc] at hw
      simp only [Bool.false_eq_true, if_false] at hw
      refine ih (c :: cur) ?_ w hw
      intro d hd
      rcases List.mem_cons.mp hd with h | h
      · subst h; exact hc
      · exact hcur d h

lemma splitWS_words (l : List Char) : ∀ w ∈ splitWS l, GoodWord w :=
  splitWSAux_words l [] (by simp)

lemma splitWSAux_eq_nil :
    ∀ (l cur : List Char), splitWSAux l cur = [] →
      cur = [] ∧ ∀ c ∈ l, pyIsSpace c = true := by
  intro l
  induction l with
  | nil =>
    intro cur h
    rw [splitWSAux] at h
    split at h
    · rename_i hc; exact ⟨hc, by simp⟩
    · simp at h
  | cons c cs ih =>
    intro cur h
    rw [splitWSAux] at h
    by_cases hc : pyIsSpace c = true
    · rw [if_pos hc] at h
      split at h
      · rename_i hcur
        exact ⟨hcur, fun d hd => by
          rcases List.mem_cons.mp hd with h1 | h1
          · subst h1; exact hc
          · exact (ih [] h).2 d h1⟩
      · simp at h
    · rw [Bool.not_eq_true] at hc
      rw [hc] at h
      simp only [Bool.false_eq_true, if_false] at h
      have := (ih (c :: cur) h).1
      simp at this

lemma splitWS_ne_nil (l : List Char) (h : strip l ≠ []) : splitWS l ≠ [] := by
  intro hcontra
  exact h ((strip_eq_nil_iff l).mpr (splitWSAux_eq_nil l [] hcontra).2)

lemma joinSP_cons (w : List Char) (r : List Char) (rs : List (List Char)) :
    joinSP (w :: r :: rs) = w ++ ' ' :: joinSP (r :: rs) := by
  rw [joinSP, joinSep]
  simp [joinSP]

lemma joinSP_flat :
    ∀ (rest : List (List Char)) (w : List Char),
      joinSP (w :: rest) = w ++ rest.flatMap (fun v => ' ' :: v) := by
  intro rest
  induction rest with
  | nil => intro w; simp [joinSP, joinSep]
  | cons r rs ih =>
    intro w
    rw [joinSP_cons, ih r]
    simp

lemma joinSP_append_word :
    ∀ (ws : List (List Char)) (w : List Char), ws ≠ [] →
      joinSP (ws ++ [w]) = joinSP ws ++ ' ' :: w := by
  intro ws
  induction ws with
  | nil => intro w h; exact absurd rfl h
  | cons a rest ih =>
    intro w _
    cases rest with
    | nil => simp [joinSP, joinSep]
    | cons b rs =>
      have h1 : (a :: b :: rs) ++ [w] = a :: ((b :: rs) ++ [w]) := rfl
      rw [h1]
      have h2 : (b :: rs) ++ [w] = b :: (rs ++ [w]) := rfl
      rw [h2, joinSP_cons, ← h2, ih w (by simp), joinSP_cons]
      simp

lemma mem_joinSP :
    ∀ (ws : List (List Char)) (c : Char), c ∈ joinSP ws →
      c = ' ' ∨ ∃ w ∈ ws, c ∈ w := by
  intro ws
  induction ws with
  | nil => intro c hc; simp [joinSP, joinSep] at hc
  | cons w rest ih =>
    intro c hc
    cases rest with
    | nil =>
      right
      exact ⟨w, by simp, by simpa [joinSP, joinSep] using hc⟩
    | cons r rs =>
      rw [joinSP_cons] at hc
      rcases List.mem_append.mp hc with h | h
      · exact Or.inr ⟨w, by simp, h⟩
      · rcases List.mem_cons.mp h with h1 | h1
        · exact Or.inl h1
        · rcases ih c h1 with h2 | ⟨v, hv, hcv⟩
          · exact Or.inl h2
          · exact Or.inr ⟨v, List.mem_cons_of_mem _ hv, hcv⟩

end PyStr

namespace PyStr

lemma splitWS_joinSP :
    ∀ (ws : List (List Char)), (∀ w ∈ ws, GoodWord w) →
      splitWS (joinSP ws) = ws := by
  intro ws
  induction ws with
  | nil => intro _; rfl
  | cons w rest ih =>
    intro hgood
    have hw := hgood w (by simp)
    cases rest with
    | nil =>
      show splitWSAux (joinSP [w]) [] = [w]
      have h1 : joinSP [w] = w ++ [] := by simp [joinSP, joinSep]
      rw [h1, splitWSAux_nonspace w [] [] hw.2, splitWSAux]
      simp [hw.1]
    | cons r rs =>
      show splitWSAux (joinSP (w :: r :: rs)) [] = w :: r :: rs
      rw [joinSP_cons,
        show w ++ ' ' :: joinSP (r :: rs) =
          w ++ (' ' :: joinSP (r :: rs)) from rfl,
        splitWSAux_nonspace w _ [] hw.2, splitWSAux]
      rw [if_pos (show pyIsSpace ' ' = true from rfl)]
      rw [if_neg (by simp [hw.1])]
      rw [show splitWSAux (joinSP (r :: rs)) [] = splitWS (joinSP (r :: rs))
        from rfl]
      rw [ih (fun v hv => hgood v (List.mem_cons_of_mem _ hv))]
      simp

end PyStr

namespace FormatUtils

lemma IsPack.single {n : ℕ} {w : List Char} (h : PyStr.GoodWord w) :
    IsPack n w :=
  ⟨[w], by simp, by simpa using h, by simp [PyStr.joinSP, PyStr.joinSep],
   by simp⟩

lemma IsPack.ne_nil {n : ℕ} {l : List Char} (h : IsPack n l) : l ≠ [] := by
  obtain ⟨ws, hne, hgood, heq, _⟩ := h
  cases ws with
  | nil => exact absurd rfl hne
  | cons w rest =>
    subst heq
    rw [PyStr.joinSP_flat]
    simp [(hgood w (by simp)).1]

lemma IsPack.no_lf {n : ℕ} {l : List Char} (h : IsPack n l) : '\n' ∉ l := by
  obtain ⟨ws, _, hgood, heq, _⟩ := h
  subst heq
  intro hm
  rcases PyStr.mem_joinSP ws '\n' hm with h1 | ⟨w, hw, hcw⟩
  · exact absurd h1 (by decide)
  · exact absurd ((hgood w hw).2 '\n' hcw) (by decide)

lemma IsPack.strip_ne {n : ℕ} {l : List Char} (h : IsPack n l) :
    PyStr.strip l ≠ [] := by
  obtain ⟨ws, hne, hgood, heq, _⟩ := h
  cases ws with
  | nil => exact absurd rfl hne
  | cons w rest =>
    subst heq
    intro hcontra
    have hall := (PyStr.strip_eq_nil_iff _).mp hcontra
    obtain ⟨c, hc⟩ := List.exists_mem_of_ne_nil w (hgood w (by simp)).1
    have hcl : c ∈ PyStr.joinSP (w :: rest) := by
      rw [PyStr.joinSP_flat]
      exact List.mem_append_left _ hc
    have := hall c hcl
    rw [(hgood w (by simp)).2 c hc] at this
    exact absurd this (by decide)

lemma IsPack.bound_or_word {n : ℕ} {l : List Char} (h : IsPack n l) :
    l.length ≤ n ∨ PyStr.NoWS l := by
  obtain ⟨ws, hne, hgood, heq, hbound⟩ := h
  cases ws with
  | nil => exact absurd rfl hne
  | cons w rest =>
    cases rest with
    | nil =>
      right
      have hl : l = w := by simpa [PyStr.joinSP, PyStr.joinSep] using heq
      rw [hl]
      exact (hgood w (by simp)).2
    | cons r rs => exact Or.inl (hbound (by simp))

end FormatUtils

namespace FormatUtils

lemma packLoop_good {n : ℕ} :
    ∀ (ws : List (List Char)) (cur : List Char),
      (∀ w ∈ ws, PyStr.GoodWord w) →
      (cur = [] ∨ IsPack n cur) →
      (∀ l ∈ (packLoop n cur ws).1, IsPack n l) ∧
      ((packLoop n cur ws).2 = [] ∨ IsPack n (packLoop n cur ws).2) := by
  intro ws
  induction ws with
  | nil =>
    intro cur _ hcur
    exact ⟨by simp [packLoop], by simpa [packLoop] using hcur⟩
  | cons w ws ih =>
    intro cur hgood hcur
    have hw : PyStr.GoodWord w := hgood w (by simp)
    have hgood' : ∀ v ∈ ws, PyStr.GoodWord v :=
      fun v hv => hgood v (List.mem_cons_of_mem _ hv)
    rw [packLoop]
    simp only []
    by_cases hcur0 : cur = []
    · rw [if_pos hcur0]  -- test_line = word
      by_cases hlen : w.length ≤ n
      · rw [if_pos hlen]
        exact ih w hgood' (Or.inr (IsPack.single hw))
      · rw [if_neg hlen, if_pos hcur0]
        exact ⟨(ih w hgood' (Or.inr (IsPack.single hw))).1,
          (ih w hgood' (Or.inr (IsPack.single hw))).2⟩
    · rw [if_neg hcur0]  -- test_line = cur ++ [' '] ++ word
      obtain ⟨cws, hcne, hcgood, hceq, _⟩ := hcur.resolve_left hcur0
      have htest : cur ++ [' '] ++ w = PyStr.joinSP (cws ++ [w]) := by
        rw [PyStr.joinSP_append_word cws w hcne, ← hceq]
        simp
      by_cases hlen : (cur ++ [' '] ++ w).length ≤ n
      · rw [if_pos hlen]
        refine ih (cur ++ [' '] ++ w) hgood' (Or.inr ?_)
        refine ⟨cws ++ [w], by simp, ?_, htest, fun _ => hlen⟩
        intro v hv
        rcases List.mem_append.mp hv with h | h
        · exact hcgood v h
        · rw [List.mem_singleton.mp h]; exact hw
      · rw [if_neg hlen, if_neg hcur0]
        have hr := ih w hgood' (Or.inr (IsPack.single hw))
        refine ⟨?_, hr.2⟩
        intro l hl
        rcases List.mem_cons.mp hl with h | h
        · rw [h]; exact hcur.resolve_left hcur0
        · exact hr.1 l h

lemma packLoop_all_fits {n : ℕ} :
    ∀ (ws : List (List Char)) (cur : List Char), cur ≠ [] →
      (cur ++ ws.flatMap fun w => ' ' :: w).length ≤ n →
      packLoop n cur ws = ([], cur ++ ws.flatMap fun w => ' ' :: w) := by
  intro ws
  induction ws with
  | nil => intro cur _ _; simp [packLoop]
  | cons w ws ih =>
    intro cur hcur hlen
    rw [packLoop]
    simp only []
    rw [if_neg hcur]
    have hflat : cur ++ (w :: ws).flatMap (fun v => ' ' :: v) =
        (cur ++ [' '] ++ w) ++ ws.flatMap (fun v => ' ' :: v) := by
      simp
    have hfits : (cur ++ [' '] ++ w).length ≤ n := by
      rw [hflat] at hlen
      simp only [List.length_append] at hlen ⊢
      omega
    rw [if_pos hfits, ih (cur ++ [' '] ++ w) (by simp) (by rw [← hflat]; exact hlen)]
    rw [hflat]

lemma packLoop_cur_ne {n : ℕ} :
    ∀ (ws : List (List Char)) (cur : List Char),
      (∀ w ∈ ws, w ≠ []) → (cur ≠ [] ∨ ws ≠ []) →
      (packLoop n cur ws).2 ≠ [] := by
  intro ws
  induction ws with
  | nil =>
    intro cur _ hor
    simpa [packLoop] using hor.resolve_right (by simp)
  | cons w ws ih =>
    intro cur hne _
    have hw : w ≠ [] := hne w (by simp)
    have hne' : ∀ v ∈ ws, v ≠ [] := fun v hv => hne v (List.mem_cons_of_mem _ hv)
    rw [packLoop]
    simp only []
    by_cases hcur0 : cur = []
    · rw [if_pos hcur0]
      by_cases hlen : w.length ≤ n
      · rw [if_pos hlen]; exact ih w hne' (Or.inl hw)
      · rw [if_neg hlen]
        exact ih w hne' (Or.inl hw)
    · rw [if_neg hcur0]
      by_cases hlen : (cur ++ [' '] ++ w).length ≤ n
      · rw [if_pos hlen]; exact ih _ hne' (Or.inl (by simp))
      · rw [if_neg hlen]
        exact ih w hne' (Or.inl hw)

lemma packWords_lines {n : ℕ} (ws : List (List Char))
    (h : ∀ w ∈ ws, PyStr.GoodWord w) :
    ∀ l ∈ packWords n ws, IsPack n l := by
  intro l hl
  have hgd := packLoop_good (n := n) ws [] h (Or.inl rfl)
  rw [packWords] at hl
  split at hl
  · exact hgd.1 l hl
  · rename_i hne
    rcases List.mem_append.mp hl with h1 | h1
    · exact hgd.1 l h1
    · rw [List.mem_singleton.mp h1]
      exact hgd.2.resolve_left hne

lemma packWords_ne_nil {n : ℕ} (ws : List (List Char)) (hne : ws ≠ [])
    (h : ∀ w ∈ ws, PyStr.GoodWord w) : packWords n ws ≠ [] := by
  rw [packWords]
  have := packLoop_cur_ne (n := n) ws [] (fun w hw => (h w hw).1) (Or.inr hne)
  rw [if_neg this]
  simp

lemma packWords_fits {n : ℕ} (ws : List (List Char)) (hne : ws ≠ [])
    (hgood : ∀ w ∈ ws, PyStr.GoodWord w)
    (hlen : (PyStr.joinSP ws).length ≤ n) :
    packWords n ws = [PyStr.joinSP ws] := by
  cases ws with
  | nil => exact absurd rfl hne
  | cons w rest =>
    have hw : PyStr.GoodWord w := hgood w (by simp)
    have hflat := PyStr.joinSP_flat rest w
    rw [packWords, packLoop]
    simp only []
    simp only [if_true]
    have hw_le : w.length ≤ n := by
      rw [hflat] at hlen
      simp only [List.length_append] at hlen
      omega
    rw [if_pos hw_le,
      packLoop_all_fits rest w hw.1 (by rw [← hflat]; exact hlen)]
    rw [← hflat]
    have : PyStr.joinSP (w :: rest) ≠ [] := by
      rw [hflat]; simp [hw.1]
    simp [this]

lemma packWords_single {n : ℕ} (w : List Char) (h : PyStr.GoodWord w) :
    packWords n [w] = [w] := by
  by_cases hlen : w.length ≤ n
  · have := packWords_fits (n := n) [w] (by simp) (by simpa using h)
      (by simpa [PyStr.joinSP, PyStr.joinSep] using hlen)
    simpa [PyStr.joinSP, PyStr.joinSep] using this
  · rw [packWords, packLoop]
    simp only []
    simp only [if_true]
    rw [if_neg hlen]
    simp [packLoop, h.1]

end FormatUtils

namespace FormatUtils

lemma reflowPara_id {n : ℕ} (l : List Char) (h : IsPack n l) :
    reflowPara n l = l := by
  rw [reflowPara, if_neg h.strip_ne]
  obtain ⟨ws, hne, hgood, heq, hbound⟩ := h
  rw [heq, PyStr.splitWS_joinSP ws hgood]
  cases ws with
  | nil => exact absurd rfl hne
  | cons w rest =>
    cases rest with
    | nil =>
      rw [packWords_single w (hgood w (by simp))]
      simp [PyStr.joinNL, PyStr.joinSP, PyStr.joinSep]
    | cons r rs =>
      rw [packWords_fits (w :: r :: rs) (by simp) hgood
        (by rw [← heq]; exact hbound (by simp))]
      simp [PyStr.joinNL, PyStr.joinSep]

lemma splitNL_reflowPara (n : ℕ) (p : List Char) :
    PyStr.splitNL (reflowPara n p) =
      if PyStr.strip p = [] then [[]]
      else packWords n (PyStr.splitWS p) := by
  rw [reflowPara]
  split
  · rfl
  · rename_i hstrip
    exact PyStr.splitNL_joinNL_of_noNL _
      (packWords_ne_nil _ (PyStr.splitWS_ne_nil p hstrip)
        (PyStr.splitWS_words p))
      (fun l hl => (packWords_lines _ (PyStr.splitWS_words p) l hl).no_lf)

lemma splitNL_reflowPos (n : ℕ) (text : List Char) :
    PyStr.splitNL (reflowPos n text) =
      (PyStr.splitNL text).flatMap
        (fun p => PyStr.splitNL (reflowPara n p)) := by
  rw [reflowPos, PyStr.splitNL_joinNL_flat _
    (by simpa using PyStr.splitNL_ne_nil text)]
  rw [List.flatMap_map]

lemma reflowPara_para_id (n : ℕ) (p : List Char) :
    PyStr.joinNL ((PyStr.splitNL (reflowPara n p)).map (reflowPara n)) =
      reflowPara n p := by
  rw [splitNL_reflowPara]
  split
  · rename_i hstrip
    rw [reflowPara, if_pos hstrip]
    simp [PyStr.joinNL, PyStr.joinSep, reflowPara]
  · rename_i hstrip
    have hlines := packWords_lines (n := n) _ (PyStr.splitWS_words p)
    have hmap : (packWords n (PyStr.splitWS p)).map (reflowPara n) =
        packWords n (PyStr.splitWS p) := by
      have h1 : List.map (reflowPara n) (packWords n (PyStr.splitWS p)) =
          List.map id (packWords n (PyStr.splitWS p)) :=
        List.map_congr_left (fun l hl => reflowPara_id l (hlines l hl))
      rw [h1, List.map_id]
    rw [hmap, reflowPara, if_neg hstrip]

lemma reflowPos_idem (n : ℕ) (text : List Char) :
    reflowPos n (reflowPos n text) = reflowPos n text := by
  conv_lhs => rw [reflowPos, splitNL_reflowPos]
  rw [List.map_flatMap]
  rw [PyStr.joinNL_flatMap _ _ (by simpa using PyStr.splitNL_ne_nil text)
    (fun p hp => by simpa using PyStr.splitNL_ne_nil (reflowPara n p))]
  rw [List.map_congr_left
    (fun p hp => reflowPara_para_id n p)]
  rfl

end FormatUtils

namespace FormatUtils

lemma reflowPos_lines {n : ℕ} (text : List Char) :
    ∀ line ∈ PyStr.splitNL (reflowPos n text),
      line.length ≤ n ∨ PyStr.NoWS line := by
  intro line hline
  rw [splitNL_reflowPos] at hline
  rcases List.mem_flatMap.mp hline with ⟨p, hp, hl⟩
  rw [splitNL_reflowPara] at hl
  split at hl
  · left
    rw [List.mem_singleton.mp hl]
    simp
  · exact (packWords_lines _ (PyStr.splitWS_words p) line hl).bound_or_word

end FormatUtils

/-- C6: for every string and every `max_chars > 0`,
`format_text_with_line_breaks` succeeds, is idempotent (re-reflowing its
own output with the same width is the identity), and every output line
either fits in `max_chars` characters or is a single word (contains no
whitespace) longer than `max_chars` — words are never split. -/
theorem claim_C6_reflow_idempotent_bounded :
    ∀ (text : List Char) (max_chars : ℤ), 0 < max_chars →
      ∃ out,
        FormatUtils.format_text_with_line_breaks text max_chars = .ok out ∧
        FormatUtils.format_text_with_line_breaks out max_chars = .ok out ∧
        ∀ line ∈ PyStr.splitNL out,
          (line.length : ℤ) ≤ max_chars ∨
            ∀ c ∈ line, PyStr.pyIsSpace c = false := by
  intro text mc hmc
  have h1 : ¬(mc < 0) := by omega
  have h2 : ¬(mc = 0) := by omega
  refine ⟨FormatUtils.reflowPos mc.toNat text, ?_, ?_, ?_⟩
  · rw [FormatUtils.format_text_with_line_breaks, if_neg h1, if_neg h2]
  · rw [FormatUtils.format_text_with_line_breaks, if_neg h1, if_neg h2,
      FormatUtils.reflowPos_idem]
  · intro line hline
    rcases FormatUtils.reflowPos_lines (n := mc.toNat) text line hline with h | h
    · left; omega
    · exact Or.inr h

/-- C6 witness: reflowing a concrete sentence at width 11. -/
theorem claim_C6_witness :
    ∃ out,
      FormatUtils.format_text_with_line_breaks
        "hello world this is a test".toList 11 = .ok out ∧
      FormatUtils.format_text_with_line_breaks out 11 = .ok out ∧
      ∀ line ∈ PyStr.splitNL out,
        (line.length : ℤ) ≤ 11 ∨
          ∀ c ∈ line, PyStr.pyIsSpace c = false :=
  claim_C6_reflow_idempotent_bounded "hello world this is a test".toList 11
    (by decide)
